import Mathlib

/-
Verification of the bar-fetch windowing and parallel-aggregation subsystem
of the Tradier backend (pylivetrader/backend/tradier.py).

Modelling conventions:
  * Timestamps are natural numbers (minutes since an epoch for minute
    granularity, day labels for sessions).  Timezone conversions
    (tz_convert, tz_localize) relabel the presentation of an instant and
    are modelled as the identity on the underlying value.
  * The exchange calendar (the object bound to the attribute _cal, an
    external collaborator per the specification) is modelled as a
    structure of oracle functions.
  * Fallible Python code is modelled in the Except monad over PyErr.
  * Python positional indexing on a pandas index supports negative
    indices that wrap from the end and raises IndexError when out of
    range; pyGet models that exactly.
-/

namespace Tradier

/-- Python runtime errors that the modelled code can raise. -/
inductive PyErr where
  | assertionError
  | nameError (n : String)
  | keyError
  | indexError
  deriving DecidableEq, Repr

/-! ### Module-level name resolution (tradier.py)

Python resolves a free (non-local) name against the module globals and
then the builtins; if neither binds it, evaluating the name raises
NameError.  The lists below are read off the source file: every name
bound by its import statements and top-level assignments. -/

/-- Names bound at module level in tradier.py: the imports on lines 5-24
and the top-level assignments (log, NY, end_offset, one_day_offset,
tiingo_client, Asset, Backend). -/
def tradierModuleGlobals : List String :=
  ["os", "string", "sys", "namedtuple", "date", "alpaca_trade_api",
   "logbook", "pandas", "requests", "parse", "get_calendar",
   "register_calendar_alias", "default_calendar", "Equity", "BaseBackend",
   "ORDER_STATUS", "Order", "Account", "Portfolio", "Position",
   "Positions", "TiingoClient", "log", "NY", "end_offset",
   "one_day_offset", "tiingo_client", "Asset", "Backend"]

/-- The Python builtins referenced anywhere in the module (a conservative
superset of the ones that matter for the claims). -/
def pythonBuiltins : List String :=
  ["len", "range", "isinstance", "list", "set", "tuple", "dict", "str",
   "int", "float", "all", "print", "format", "AssertionError",
   "ValueError", "NotImplementedError", "Exception", "property"]

/-- A free name in a function body of tradier.py resolves iff it is a
module global or a builtin. -/
def resolvesInTradierModule (n : String) : Bool :=
  tradierModuleGlobals.contains n || pythonBuiltins.contains n

/-- The global (non-local) names referenced by the body of
_fetch_bars_from_api: locals are self, symbols, size, _from, to, limit,
parts, i, part, args, result; everything else referenced as a bare name
is listed here. -/
def fetchBarsFromApiGlobalRefs : List String :=
  ["len", "range", "ALPACA_MAX_SYMBOLS_PER_REQUEST",
   "parallelize_with_multi_process", "pd"]

/-- Helper for the Python substring test: does the needle occur at some
position of the haystack. -/
def substrSearch (needle : List Char) : List Char → Bool
  | [] => needle.isEmpty
  | c :: rest => needle.isPrefixOf (c :: rest) || substrSearch needle rest

/-- Python substring test: the expression (needle in hay) on strings. -/
def pySubstr (needle hay : String) : Bool :=
  substrSearch needle.data hay.data

/-- Embedding of get_bars (tradier.py lines 374-400) up to the first
point where control either leaves the function abnormally or proceeds to
fetch data.  The body first executes the statement
(assert "min" in data_frequency), then builds the symbol list, then
evaluates the bare name is_daily in the call to _fetch_bars_from_api.
Result ok means control reached the fetch. -/
def get_bars (data_frequency : String) : Except PyErr Unit :=
  if pySubstr "min" data_frequency = false then
    Except.error PyErr.assertionError
  else if resolvesInTradierModule "is_daily" then
    Except.ok ()
  else
    Except.error (PyErr.nameError "is_daily")

/-! ### Calendar oracle and the window resolver -/

/-- The exchange-calendar oracle (the external collaborator reached
through the attribute _cal): valid minutes, valid sessions, and the
session/minute queries used by _get_from_and_to. -/
structure Calendar where
  all_minutes : List Nat
  all_sessions : List Nat
  minute_to_session_label : Nat → Nat
  minutes_for_session : Nat → List Nat
  previous_minute : Nat → Nat

/-- The oracle operation minutes_in_range(lo, hi): all valid minutes t
with lo ≤ t ≤ hi, in calendar order. -/
def Calendar.minutesInRange (cal : Calendar) (lo hi : Nat) : List Nat :=
  cal.all_minutes.filter (fun t => decide (lo ≤ t) && decide (t ≤ hi))

/-- The valid sessions t with lo ≤ t ≤ hi, in calendar order (used to
count day-granularity boundaries inside a window). -/
def Calendar.sessionsInRange (cal : Calendar) (lo hi : Nat) : List Nat :=
  cal.all_sessions.filter (fun t => decide (lo ≤ t) && decide (t ≤ hi))

/-- Python index normalization: a negative index counts from the end. -/
def pyWrap (len : Nat) (i : Int) : Int :=
  if i < 0 then i + len else i

/-- Python positional indexing on a pandas index: a negative index wraps
from the end; an index out of range (after wrapping) raises IndexError. -/
def pyGet (xs : List Nat) (i : Int) : Except PyErr Nat :=
  if 0 ≤ pyWrap xs.length i ∧ pyWrap xs.length i < xs.length then
    Except.ok (xs.getD (pyWrap xs.length i).toNat 0)
  else Except.error PyErr.indexError

/-- pandas Index.get_loc: the position of a value in the index, KeyError
when the value is absent. -/
def getLoc (xs : List Nat) (v : Nat) : Except PyErr Nat :=
  match xs.findIdx? (fun t => t = v) with
  | none => Except.error PyErr.keyError
  | some idx => Except.ok idx

/-- Bar granularity: the size argument ("minute" or "day"). -/
inductive Size where
  | minute
  | day
  deriving DecidableEq, Repr

/-- Embedding of _get_from_and_to (tradier.py lines 448-478).  The
parameter now stands for pd.to_datetime("now").floor("min"), used when
end_dt is absent.  For minute size: if end_dt is not a minute of its
session it is stepped back to the previous valid minute and then one
more minute (the documented off-by-one compensation); the start is the
minute at position idx - limit + 1, or idx - limit when limit == 1.
For day size the start session is at position idx - limit + 1.
Positional indexing follows Python semantics (pyGet); get_loc on a value
absent from the index raises KeyError. -/
def getFromAndTo (cal : Calendar) (now : Nat) (size : Size) (limit : Int)
    (end_dt? : Option Nat) : Except PyErr (Nat × Nat) :=
  match size with
  | Size.minute =>
    Except.bind
      (getLoc cal.all_minutes
        (if end_dt?.getD now ∈ cal.minutes_for_session
              (cal.minute_to_session_label (end_dt?.getD now))
         then end_dt?.getD now
         else cal.previous_minute (end_dt?.getD now) - 1))
      (fun idx =>
        Except.map
          (fun s => (s,
            if end_dt?.getD now ∈ cal.minutes_for_session
                  (cal.minute_to_session_label (end_dt?.getD now))
            then end_dt?.getD now
            else cal.previous_minute (end_dt?.getD now) - 1))
          (pyGet cal.all_minutes
            (if limit ≠ 1 then (idx : Int) - limit + 1
             else (idx : Int) - limit)))
  | Size.day =>
    Except.bind
      (getLoc cal.all_sessions (cal.minute_to_session_label (end_dt?.getD now)))
      (fun idx =>
        Except.map
          (fun s => (s, cal.minute_to_session_label (end_dt?.getD now)))
          (pyGet cal.all_sessions ((idx : Int) - limit + 1)))

/-! ### Per-batch fetch pipeline (_fetch_bars_from_api_internal)

A data frame with a timestamp index is modelled as an association list
from timestamps to rows; the row type is abstract.  After reindexing,
rows are optional: none is the explicit no-data marker produced by
pandas reindex for index values absent from the frame. -/

/-- Embedding of line 511 (df.index = df.index.tz_localize("UTC")):
tagging naive timestamps as UTC relabels the presentation only, so it is
the identity on the underlying instants. -/
def tzLocalizeUTC {ρ : Type} (raw : List (Nat × ρ)) : List (Nat × ρ) :=
  raw

/-- Embedding of lines 510-514: after the UTC tagging, minute bars get
their index shifted forward by one minute (df.index += 1min); day bars
are left unchanged. -/
def dfAfterTz {ρ : Type} (size : Size) (raw : List (Nat × ρ)) :
    List (Nat × ρ) :=
  match size with
  | Size.minute => (tzLocalizeUTC raw).map (fun p => (p.1 + 1, p.2))
  | Size.day => tzLocalizeUTC raw

/-- Row lookup by timestamp, as pandas does when aligning a frame with a
unique index onto a new index. -/
def lookupRow {ρ : Type} (df : List (Nat × ρ)) (t : Nat) : Option ρ :=
  (df.find? (fun p => decide (p.1 = t))).map (fun p => p.2)

/-- Embedding of df.reindex(mask): the result has exactly the index
mask; positions present in df keep their row, positions absent from df
become explicit no-data rows. -/
def reindexOn {ρ : Type} (mask : List Nat) (df : List (Nat × ρ)) :
    List (Nat × Option ρ) :=
  mask.map (fun t => (t, lookupRow df t))

/-- Embedding of the table transformation done by the wrapper body of
_fetch_bars_from_api_internal (lines 509-523) on the already-concatenated
raw provider frame: tag as UTC, shift minute indexes by one minute, and
for a non-empty minute frame reindex onto the calendar minutes spanning
the first and last index entries.  Day frames pass through (their rows
wrapped as present rows). -/
def fetchInternalTable {ρ : Type} (cal : Calendar) (size : Size)
    (raw : List (Nat × ρ)) : List (Nat × Option ρ) :=
  let df := dfAfterTz size raw
  match size with
  | Size.day => df.map (fun p => (p.1, some p.2))
  | Size.minute =>
    match df with
    | [] => []
    | first :: rest =>
      let lastEntry := (first :: rest).getLast (List.cons_ne_nil _ _)
      reindexOn (cal.minutesInRange first.1 lastEntry.1) (first :: rest)

/-! ### Transient-error absorption and batch collection

The decorator skip_http_error and the driver
parallelize_with_multi_process are code of this repository that is not
under src/ (tradier.py references them without importing them), so their
semantics are modelled from the spec; the status list (404, 504) and the
application site are read off lines 486 and 442-444 of the source. -/

/-- Modelled from the spec: skip_http_error(statuses) absorbs a
retrieval failure in the recognized transient class (its HTTP status in
statuses), yielding an empty result for that batch, and propagates every
other failure unchanged. -/
def skipHttpError {α : Type} (statuses : List Nat) (empty : α)
    (r : Except Nat α) : Except Nat α :=
  match r with
  | Except.ok v => Except.ok v
  | Except.error s =>
    if s ∈ statuses then Except.ok empty else Except.error s

/-- One batch of _fetch_bars_from_api_internal: the provider retrieval
for the batch (which may fail with an HTTP status) followed by the table
pipeline, the whole body wrapped by skip_http_error((404, 504)) exactly
as on line 486. -/
def fetchInternalGuarded {β ρ : Type} (cal : Calendar) (size : Size)
    (provider : β → Except Nat (List (Nat × ρ))) (b : β) :
    Except Nat (List (Nat × Option ρ)) :=
  skipHttpError [404, 504] []
    ((provider b).map (fun raw => fetchInternalTable cal size raw))

/-- Modelled from the spec: the parallel driver collects per-batch
results in input order and aborts the whole fetch, returning no partial
result, as soon as a batch fails non-transiently. -/
def fetchAllBatches {β γ : Type} (f : β → Except Nat γ) :
    List β → Except Nat (List γ)
  | [] => Except.ok []
  | b :: bs =>
    match f b with
    | Except.error e => Except.error e
    | Except.ok t =>
      match fetchAllBatches f bs with
      | Except.error e => Except.error e
      | Except.ok ts => Except.ok (t :: ts)

/-! ### Completion-order model of the parallel driver

Modelled from the spec: each batch is dispatched to an independent unit
of concurrent execution writing into its own slot, and the slots are
read back in input order.  A run is parameterized by an arbitrary
completion order (a permutation of the batch positions); the collected
output must not depend on it. -/

/-- The stream of completion events of one run: the scheduler finishes
the batches in the given order, each completion writing (slot, result). -/
def runCompletions {α β : Type} (f : β → α) (batches : List β) (dflt : β)
    (order : List Nat) : List (Nat × α) :=
  order.map (fun i => (i, f (batches.getD i dflt)))

/-- Reading the result slots back in input order: slot i holds the value
of the completion event for position i, if any. -/
def collectInOrder {α : Type} (n : Nat) (events : List (Nat × α)) :
    List (Option α) :=
  (List.range n).map
    (fun i => (events.find? (fun e => decide (e.1 = i))).map (fun e => e.2))

/-! ### Symbol batching (_fetch_bars_from_api, lines 433-436)

The source loop is: for i in range(0, len(symbols), N):
parts.append(symbols[i : i + N]).  Each iteration takes the next N
symbols; the loop runs at most len(symbols) times, which bounds the fuel
of the structural embedding below. -/

/-- Fuel-bounded chunking loop; the fuel is an upper bound on the number
of iterations (one chunk of size n is emitted per iteration). -/
def splitGo {α : Type} (n : Nat) : Nat → List α → List (List α)
  | 0, _ => []
  | _ + 1, [] => []
  | fuel + 1, x :: xs => (x :: xs).take n :: splitGo n fuel ((x :: xs).drop n)

/-- Embedding of the batching loop of _fetch_bars_from_api: split the
symbol list into consecutive chunks of size n (the provider limit
ALPACA_MAX_SYMBOLS_PER_REQUEST), the last chunk possibly shorter. -/
def splitSymbols {α : Type} (n : Nat) (xs : List α) : List (List α) :=
  splitGo n xs.length xs

/-! ### A small concrete calendar for witnesses and counterexamples -/

/-- A five-minute trading calendar: one session labelled 11 whose valid
minutes are 100..104. -/
def calNY : Calendar where
  all_minutes := [100, 101, 102, 103, 104]
  all_sessions := [11]
  minute_to_session_label := fun _ => 11
  minutes_for_session := fun s => if s = 11 then [100, 101, 102, 103, 104] else []
  previous_minute := fun t => t - 1

/-- A two-row raw minute frame used by the reindexing witness: bars whose
open minutes are 100 and 102 (so close minutes 101 and 103, leaving a
no-data gap at 102). -/
def rawW : List (Nat × Nat) :=
  [(100, 7), (102, 9)]

/-! ### Sorted-list lemmas

A well-formed calendar lists its valid minutes and sessions in strictly
increasing order; the lemmas below turn that into facts about filters
and positional lookups. -/

theorem getD_mem (l : List Nat) (n : Nat) (hn : n < l.length) :
    l.getD n 0 ∈ l := by
  rw [List.getD_eq_getElem _ _ hn]
  exact List.getElem_mem hn

theorem sorted_head_le (l : List Nat) :
    l.Sorted (· < ·) → ∀ y ∈ l, l.getD 0 0 ≤ y := by
  cases l with
  | nil => intro _ y hy; cases hy
  | cons c cs =>
    intro hs y hy
    rcases List.mem_cons.mp hy with rfl | hy'
    · simp
    · simpa using le_of_lt ((List.sorted_cons.mp hs).1 y hy')

theorem sorted_getD_lt (l : List Nat) (hs : l.Sorted (· < ·)) (a b : Nat)
    (hab : a < b) (hb : b < l.length) : l.getD a 0 < l.getD b 0 := by
  have ha : a < l.length := lt_trans hab hb
  rw [List.getD_eq_getElem _ _ ha, List.getD_eq_getElem _ _ hb]
  exact List.pairwise_iff_get.mp hs ⟨a, ha⟩ ⟨b, hb⟩ hab

theorem sorted_getD_le (l : List Nat) (hs : l.Sorted (· < ·)) (a b : Nat)
    (hab : a ≤ b) (hb : b < l.length) : l.getD a 0 ≤ l.getD b 0 := by
  rcases Nat.eq_or_lt_of_le hab with rfl | hlt
  · exact le_rfl
  · exact le_of_lt (sorted_getD_lt l hs a b hlt hb)

theorem sorted_le_getLast (l : List Nat) (hne : l ≠ [])
    (hs : l.Sorted (· < ·)) : ∀ y ∈ l, y ≤ l.getLast hne := by
  intro y hy
  obtain ⟨i, hi, rfl⟩ := List.mem_iff_getElem.mp hy
  rw [List.getLast_eq_getElem]
  have hlast : l.length - 1 < l.length := by omega
  rw [← List.getD_eq_getElem l 0 hi, ← List.getD_eq_getElem l 0 hlast]
  exact sorted_getD_le l hs i (l.length - 1) (by omega) hlast

/-- In a strictly sorted list, the elements lying between the entries at
positions a and b (inclusive) are exactly the slice from a to b. -/
theorem filter_between_slice (l : List Nat) :
    l.Sorted (· < ·) → ∀ a b : Nat, a ≤ b → b < l.length →
    l.filter (fun x => decide (l.getD a 0 ≤ x) && decide (x ≤ l.getD b 0)) =
      (l.drop a).take (b - a + 1) := by
  induction l with
  | nil => intro _ a b _ hb; simp at hb
  | cons x xs ih =>
    intro hs a b hab hb
    obtain ⟨hsx, hsxs⟩ := List.sorted_cons.mp hs
    match a, b with
    | 0, 0 =>
      have hnil : xs.filter
          (fun y => decide (x ≤ y) && decide (y ≤ x)) = [] := by
        apply List.filter_eq_nil_iff.mpr
        intro y hy
        have := hsx y hy
        simp only [Bool.and_eq_true, decide_eq_true_eq, not_and]
        intro _
        omega
      simp [List.filter_cons, hnil]
    | 0, b' + 1 =>
      have hb' : b' < xs.length := by simpa using hb
      have hgd0 : (x :: xs).getD 0 0 = x := by simp
      have hgd : (x :: xs).getD (b' + 1) 0 = xs.getD b' 0 := by simp
      have hxle : x ≤ xs.getD b' 0 :=
        le_of_lt (hsx _ (getD_mem xs b' hb'))
      have hcongr : xs.filter
            (fun y => decide (x ≤ y) && decide (y ≤ xs.getD b' 0)) =
          xs.filter
            (fun y => decide (xs.getD 0 0 ≤ y) && decide (y ≤ xs.getD b' 0)) := by
        apply List.filter_congr
        intro y hy
        have h1 : decide (x ≤ y) = true :=
          decide_eq_true (le_of_lt (hsx y hy))
        have h2 : decide (xs.getD 0 0 ≤ y) = true :=
          decide_eq_true (sorted_head_le xs hsxs y hy)
        rw [h1, h2]
      have hhead : (decide (x ≤ x) && decide (x ≤ xs.getD b' 0)) = true := by
        rw [decide_eq_true le_rfl, decide_eq_true hxle]
        rfl
      rw [hgd0, hgd, List.filter_cons, hhead, if_pos rfl]
      rw [hcongr, ih hsxs 0 b' (Nat.zero_le _) hb']
      simp
    | a' + 1, b' + 1 =>
      have hab' : a' ≤ b' := by omega
      have hb' : b' < xs.length := by simpa using hb
      have ha' : a' < xs.length := lt_of_le_of_lt hab' hb'
      have hxlt : x < xs.getD a' 0 := hsx _ (getD_mem xs a' ha')
      have hgda : (x :: xs).getD (a' + 1) 0 = xs.getD a' 0 := by simp
      have hgdb : (x :: xs).getD (b' + 1) 0 = xs.getD b' 0 := by simp
      have hhead :
          (decide (xs.getD a' 0 ≤ x) && decide (x ≤ xs.getD b' 0)) = false := by
        have hnle : ¬ (xs.getD a' 0 ≤ x) := by omega
        rw [decide_eq_false hnle]
        rfl
      rw [hgda, hgdb, List.filter_cons, hhead,
        if_neg (by simp)]
      rw [ih hsxs a' b' hab' hb']
      simp only [List.drop_succ_cons]
      congr 1
      omega

/-- Counting the entries of a strictly sorted list between the values at
positions a and b (inclusive) gives b - a + 1. -/
theorem count_between (l : List Nat) (hs : l.Sorted (· < ·)) (a b : Nat)
    (hab : a ≤ b) (hb : b < l.length) :
    (l.filter
      (fun x => decide (l.getD a 0 ≤ x) && decide (x ≤ l.getD b 0))).length =
      b - a + 1 := by
  rw [filter_between_slice l hs a b hab hb]
  rw [List.length_take, List.length_drop]
  omega

/-- In a frame whose index is strictly sorted, lookup of a present pair
finds exactly that pair. -/
theorem find_pair_of_sorted {ρ : Type} (df : List (Nat × ρ)) :
    (df.map Prod.fst).Sorted (· < ·) → ∀ (t : Nat) (r : ρ), (t, r) ∈ df →
    df.find? (fun p => decide (p.1 = t)) = some (t, r) := by
  induction df with
  | nil => intro _ t r hmem; cases hmem
  | cons p ps ih =>
    intro hs t r hmem
    rw [List.map_cons] at hs
    obtain ⟨hlt, hstail⟩ := List.sorted_cons.mp hs
    by_cases hp : p.1 = t
    · rcases List.mem_cons.mp hmem with h | hmem'
      · rw [← h]
        exact List.find?_cons_of_pos _ (decide_eq_true rfl)
      · exfalso
        have ht : t ∈ ps.map Prod.fst := List.mem_map.mpr ⟨(t, r), hmem', rfl⟩
        have := hlt t ht
        omega
    · have hmem' : (t, r) ∈ ps := by
        rcases List.mem_cons.mp hmem with h | h
        · exfalso; apply hp; rw [← h]
        · exact h
      rw [List.find?_cons_of_neg ps
        (fun hc => hp (of_decide_eq_true hc))]
      exact ih hstail t r hmem'

/-! ### Reduction lemmas for the fallible-code embedding -/

theorem ebind_ok {ε α β : Type} (a : α) (f : α → Except ε β) :
    Except.bind (Except.ok a) f = f a := rfl

theorem emap_ok {ε α β : Type} (g : α → β) (a : α) :
    Except.map g (Except.ok a : Except ε α) = Except.ok (g a) := rfl

theorem emap_error {ε α β : Type} (g : α → β) (e : ε) :
    Except.map g (Except.error e : Except ε α) = Except.error e := rfl

theorem pyWrap_nonneg (len : Nat) (i : Int) (h : 0 ≤ i) :
    pyWrap len i = i := by
  unfold pyWrap
  rw [if_neg (by omega)]

theorem pyGet_nonneg (xs : List Nat) (i : Int) (h0 : 0 ≤ i)
    (h1 : i < xs.length) :
    pyGet xs i = Except.ok (xs.getD i.toNat 0) := by
  unfold pyGet
  rw [pyWrap_nonneg xs.length i h0, if_pos ⟨h0, h1⟩]

theorem pyGet_neg_wrap (xs : List Nat) (i : Int) (hneg : i < 0)
    (h0 : 0 ≤ i + xs.length) :
    pyGet xs i = Except.ok (xs.getD (i + xs.length).toNat 0) := by
  unfold pyGet
  have hw : pyWrap xs.length i = i + xs.length := by
    unfold pyWrap
    rw [if_pos hneg]
  rw [hw, if_pos ⟨h0, by omega⟩]

theorem pyGet_low (xs : List Nat) (i : Int) (h : i + xs.length < 0) :
    pyGet xs i = Except.error PyErr.indexError := by
  unfold pyGet
  have hneg : i < 0 := by omega
  have hw : pyWrap xs.length i = i + xs.length := by
    unfold pyWrap
    rw [if_pos hneg]
  rw [hw, if_neg (by omega)]

theorem pyGet_high (xs : List Nat) (i : Int) (h0 : 0 ≤ i)
    (h : (xs.length : Int) ≤ i) :
    pyGet xs i = Except.error PyErr.indexError := by
  unfold pyGet
  rw [pyWrap_nonneg xs.length i h0, if_neg (by omega)]

theorem getLoc_ok (xs : List Nat) (v : Nat) (idx : Nat)
    (h : xs.findIdx? (fun t => t = v) = some idx) :
    getLoc xs v = Except.ok idx := by
  unfold getLoc
  rw [h]

/-- When the requested end minute is a valid minute of its session (so
the previous-minute adjustment is skipped) and get_loc finds it at
position idx, the minute branch reduces to one Python indexing step. -/
theorem getFromAndTo_minute_reduce (cal : Calendar) (now : Nat)
    (limit : Int) (end_dt idx : Nat)
    (hmem : end_dt ∈ cal.minutes_for_session
      (cal.minute_to_session_label end_dt))
    (hfind : cal.all_minutes.findIdx? (fun t => t = end_dt) = some idx) :
    getFromAndTo cal now Size.minute limit (some end_dt) =
      Except.map (fun s => (s, end_dt))
        (pyGet cal.all_minutes
          (if limit ≠ 1 then (idx : Int) - limit + 1
           else (idx : Int) - limit)) := by
  unfold getFromAndTo
  have hgd : (some end_dt).getD now = end_dt := rfl
  rw [hgd, if_pos hmem, getLoc_ok _ _ _ hfind, ebind_ok]

/-- The day branch reduces to one Python indexing step on the session
sequence once get_loc finds the session label at position idx. -/
theorem getFromAndTo_day_reduce (cal : Calendar) (now : Nat)
    (limit : Int) (end_dt idx : Nat)
    (hfind : cal.all_sessions.findIdx?
      (fun t => t = cal.minute_to_session_label end_dt) = some idx) :
    getFromAndTo cal now Size.day limit (some end_dt) =
      Except.map (fun s => (s, cal.minute_to_session_label end_dt))
        (pyGet cal.all_sessions ((idx : Int) - limit + 1)) := by
  unfold getFromAndTo
  have hgd : (some end_dt).getD now = end_dt := rfl
  rw [hgd, getLoc_ok _ _ _ hfind, ebind_ok]

/-- C1 (amended): for Day granularity with bar_count ≥ 1, and for Minute
granularity with bar_count ≥ 2, the window resolver returns a window
[from, to] containing exactly bar_count calendar-valid boundaries; for
Minute granularity with bar_count == 1 the start is taken at
idx - bar_count, so the window contains exactly 2 valid minutes, not 1. -/
theorem window_boundary_count_amended (cal : Calendar)
    (hm : cal.all_minutes.Sorted (· < ·))
    (hd : cal.all_sessions.Sorted (· < ·)) :
    (∀ (now : Nat) (limit : Int) (end_dt idx : Nat),
      cal.all_minutes.findIdx? (fun t => t = end_dt) = some idx →
      idx < cal.all_minutes.length →
      cal.all_minutes.getD idx 0 = end_dt →
      end_dt ∈ cal.minutes_for_session (cal.minute_to_session_label end_dt) →
      2 ≤ limit → limit ≤ (idx : Int) + 1 →
      ∃ f, getFromAndTo cal now Size.minute limit (some end_dt) =
          Except.ok (f, end_dt)
        ∧ ((cal.minutesInRange f end_dt).length : Int) = limit)
    ∧ (∀ (now : Nat) (end_dt idx : Nat),
      cal.all_minutes.findIdx? (fun t => t = end_dt) = some idx →
      idx < cal.all_minutes.length →
      cal.all_minutes.getD idx 0 = end_dt →
      end_dt ∈ cal.minutes_for_session (cal.minute_to_session_label end_dt) →
      1 ≤ idx →
      ∃ f, getFromAndTo cal now Size.minute 1 (some end_dt) =
          Except.ok (f, end_dt)
        ∧ (cal.minutesInRange f end_dt).length = 2)
    ∧ (∀ (now : Nat) (limit : Int) (end_dt idx : Nat),
      cal.all_sessions.findIdx?
          (fun t => t = cal.minute_to_session_label end_dt) = some idx →
      idx < cal.all_sessions.length →
      cal.all_sessions.getD idx 0 = cal.minute_to_session_label end_dt →
      1 ≤ limit → limit ≤ (idx : Int) + 1 →
      ∃ f, getFromAndTo cal now Size.day limit (some end_dt) =
          Except.ok (f, cal.minute_to_session_label end_dt)
        ∧ ((cal.sessionsInRange f
              (cal.minute_to_session_label end_dt)).length : Int) = limit) := by
  refine ⟨?_, ?_, ?_⟩
  · intro now limit end_dt idx hfind hlen hget hmem h2 hle
    rw [getFromAndTo_minute_reduce cal now limit end_dt idx hmem hfind]
    rw [if_pos (by omega : limit ≠ 1)]
    have hlenZ : (idx : Int) < cal.all_minutes.length := by exact_mod_cast hlen
    have h0 : 0 ≤ (idx : Int) - limit + 1 := by omega
    have h1 : (idx : Int) - limit + 1 < cal.all_minutes.length := by omega
    rw [pyGet_nonneg _ _ h0 h1, emap_ok]
    refine ⟨_, rfl, ?_⟩
    have ha : ((idx : Int) - limit + 1).toNat ≤ idx := by omega
    have hcount := count_between cal.all_minutes hm
      (((idx : Int) - limit + 1).toNat) idx ha hlen
    unfold Calendar.minutesInRange
    rw [← hget, hcount]
    omega
  · intro now end_dt idx hfind hlen hget hmem h1idx
    rw [getFromAndTo_minute_reduce cal now 1 end_dt idx hmem hfind]
    rw [if_neg (by simp : ¬ (1 : Int) ≠ 1)]
    have hlenZ : (idx : Int) < cal.all_minutes.length := by exact_mod_cast hlen
    have h0 : 0 ≤ (idx : Int) - 1 := by omega
    rw [pyGet_nonneg _ _ h0 (by omega), emap_ok]
    refine ⟨_, rfl, ?_⟩
    have ha : ((idx : Int) - 1).toNat ≤ idx := by omega
    have hcount := count_between cal.all_minutes hm
      (((idx : Int) - 1).toNat) idx ha hlen
    unfold Calendar.minutesInRange
    rw [← hget, hcount]
    omega
  · intro now limit end_dt idx hfind hlen hget h1 hle
    rw [getFromAndTo_day_reduce cal now limit end_dt idx hfind]
    have hlenZ : (idx : Int) < cal.all_sessions.length := by exact_mod_cast hlen
    have h0 : 0 ≤ (idx : Int) - limit + 1 := by omega
    rw [pyGet_nonneg _ _ h0 (by omega), emap_ok]
    refine ⟨_, rfl, ?_⟩
    have ha : ((idx : Int) - limit + 1).toNat ≤ idx := by omega
    have hcount := count_between cal.all_sessions hd
      (((idx : Int) - limit + 1).toNat) idx ha hlen
    unfold Calendar.sessionsInRange
    rw [← hget, hcount]
    omega

/-- Witness for C1: on the concrete five-minute calendar, a minute
request with bar_count = 3 ending at 104 resolves to a window holding
exactly 3 valid minutes. -/
theorem window_boundary_count_amended_witness :
    (2 : Int) ≤ 3
    ∧ ∃ f, getFromAndTo calNY 0 Size.minute 3 (some 104) =
        Except.ok (f, 104)
      ∧ ((calNY.minutesInRange f 104).length : Int) = 3 :=
  ⟨by decide,
    (window_boundary_count_amended calNY (by decide) (by decide)).1
      0 3 104 4 (by decide) (by decide) (by decide) (by decide)
      (by decide) (by decide)⟩

/-- Counterexample for C1 as stated: with bar_count = 1 and Minute
granularity the resolved window [101, 102] contains 2 valid minutes,
not bar_count = 1. -/
theorem window_boundary_count_counterexample :
    getFromAndTo calNY 0 Size.minute 1 (some 102) = Except.ok (101, 102)
    ∧ (calNY.minutesInRange 101 102).length = 2
    ∧ (calNY.minutesInRange 101 102).length ≠ 1 :=
  ⟨rfl, rfl, by decide⟩

/-- C3 (amended): the resolver never raises an InsufficientHistoryError,
for either granularity.  Writing e for the start position actually
indexed — idx - bar_count + 1, except idx - bar_count for Minute
granularity with bar_count == 1 — for every bar_count ≥ 1: when e ≥ 0
the resolver returns a window with from ≤ to; when -len ≤ e < 0 Python
negative indexing silently wraps to position e + len (so the returned
start can lie after the end, as for Minute bar_count == 1 at idx = 0);
and when e < -len it raises IndexError. -/
theorem insufficient_history_amended (cal : Calendar)
    (hm : cal.all_minutes.Sorted (· < ·))
    (hd : cal.all_sessions.Sorted (· < ·)) :
    (∀ (now : Nat) (limit : Int) (end_dt idx : Nat),
      cal.all_minutes.findIdx? (fun t => t = end_dt) = some idx →
      idx < cal.all_minutes.length →
      cal.all_minutes.getD idx 0 = end_dt →
      end_dt ∈ cal.minutes_for_session (cal.minute_to_session_label end_dt) →
      1 ≤ limit →
      ((0 ≤ (if limit ≠ 1 then (idx : Int) - limit + 1
            else (idx : Int) - limit) →
        ∃ f, getFromAndTo cal now Size.minute limit (some end_dt) =
            Except.ok (f, end_dt) ∧ f ≤ end_dt)
      ∧ ((if limit ≠ 1 then (idx : Int) - limit + 1
            else (idx : Int) - limit) < 0 →
          0 ≤ (if limit ≠ 1 then (idx : Int) - limit + 1
            else (idx : Int) - limit) + cal.all_minutes.length →
        getFromAndTo cal now Size.minute limit (some end_dt) =
          Except.ok
            (cal.all_minutes.getD
              ((if limit ≠ 1 then (idx : Int) - limit + 1
                  else (idx : Int) - limit)
                + cal.all_minutes.length).toNat 0,
             end_dt))
      ∧ ((if limit ≠ 1 then (idx : Int) - limit + 1
            else (idx : Int) - limit) + cal.all_minutes.length < 0 →
        getFromAndTo cal now Size.minute limit (some end_dt) =
          Except.error PyErr.indexError)))
    ∧ (∀ (now : Nat) (limit : Int) (end_dt idx : Nat),
      cal.all_sessions.findIdx?
          (fun t => t = cal.minute_to_session_label end_dt) = some idx →
      idx < cal.all_sessions.length →
      cal.all_sessions.getD idx 0 = cal.minute_to_session_label end_dt →
      1 ≤ limit →
      ((0 ≤ (idx : Int) - limit + 1 →
        ∃ f, getFromAndTo cal now Size.day limit (some end_dt) =
            Except.ok (f, cal.minute_to_session_label end_dt)
          ∧ f ≤ cal.minute_to_session_label end_dt)
      ∧ ((idx : Int) - limit + 1 < 0 →
          0 ≤ (idx : Int) - limit + 1 + cal.all_sessions.length →
        getFromAndTo cal now Size.day limit (some end_dt) =
          Except.ok
            (cal.all_sessions.getD
              ((idx : Int) - limit + 1 + cal.all_sessions.length).toNat 0,
             cal.minute_to_session_label end_dt))
      ∧ ((idx : Int) - limit + 1 + cal.all_sessions.length < 0 →
        getFromAndTo cal now Size.day limit (some end_dt) =
          Except.error PyErr.indexError))) := by
  constructor
  · intro now limit end_dt idx hfind hlen hget hmem h1
    have hred := getFromAndTo_minute_reduce cal now limit end_dt idx hmem hfind
    have hlenZ : (idx : Int) < cal.all_minutes.length := by exact_mod_cast hlen
    have he : (if limit ≠ 1 then (idx : Int) - limit + 1
        else (idx : Int) - limit) ≤ (idx : Int) := by
      by_cases hl : limit = 1
      · rw [if_neg (by simp [hl])]
        omega
      · rw [if_pos hl]
        omega
    refine ⟨?_, ?_, ?_⟩
    · intro h0
      rw [hred, pyGet_nonneg _ _ h0 (by omega), emap_ok]
      refine ⟨_, rfl, ?_⟩
      rw [← hget]
      exact sorted_getD_le cal.all_minutes hm _ idx (by omega) hlen
    · intro hneg h0
      rw [hred, pyGet_neg_wrap _ _ hneg h0, emap_ok]
    · intro hlow
      rw [hred, pyGet_low _ _ hlow, emap_error]
  · intro now limit end_dt idx hfind hlen hget h1
    have hred := getFromAndTo_day_reduce cal now limit end_dt idx hfind
    have hlenZ : (idx : Int) < cal.all_sessions.length := by exact_mod_cast hlen
    refine ⟨?_, ?_, ?_⟩
    · intro h0
      rw [hred, pyGet_nonneg _ _ h0 (by omega), emap_ok]
      refine ⟨_, rfl, ?_⟩
      rw [← hget]
      exact sorted_getD_le cal.all_sessions hd _ idx (by omega) hlen
    · intro hneg h0
      rw [hred, pyGet_neg_wrap _ _ hneg h0, emap_ok]
    · intro hlow
      rw [hred, pyGet_low _ _ hlow, emap_error]

/-- Witness for C3: on the concrete calendar, a minute request of depth
7 at index 4 has start position -2 < 0, yet the resolver succeeds,
wrapping to the minute at position -2 + 5 = 3; and a day request of
depth 1 at session index 0 succeeds with from ≤ to. -/
theorem insufficient_history_amended_witness :
    ((if (7 : Int) ≠ 1 then ((4 : Nat) : Int) - 7 + 1
        else ((4 : Nat) : Int) - 7) < 0
    ∧ getFromAndTo calNY 0 Size.minute 7 (some 104) =
        Except.ok
          (calNY.all_minutes.getD
            ((if (7 : Int) ≠ 1 then ((4 : Nat) : Int) - 7 + 1
                else ((4 : Nat) : Int) - 7)
              + calNY.all_minutes.length).toNat 0,
           104))
    ∧ (0 ≤ (((0 : Nat) : Int) - 1 + 1)
    ∧ ∃ f, getFromAndTo calNY 0 Size.day 1 (some 102) =
          Except.ok (f, calNY.minute_to_session_label 102)
        ∧ f ≤ calNY.minute_to_session_label 102) :=
  ⟨⟨by decide,
    ((insufficient_history_amended calNY (by decide) (by decide)).1
      0 7 104 4 (by decide) (by decide) (by decide) (by decide)
      (by decide)).2.1 (by decide) (by decide)⟩,
   ⟨by decide,
    ((insufficient_history_amended calNY (by decide) (by decide)).2
      0 1 102 0 (by decide) (by decide) (by decide) (by decide)).1
      (by decide)⟩⟩

/-- Counterexample for C3 as stated: with idx = 2 and bar_count = 5,
idx - bar_count + 1 = -2 < 0, yet the resolver raises no error at all:
it returns the window (103, 102), whose start lies after its end. -/
theorem insufficient_history_counterexample :
    getFromAndTo calNY 0 Size.minute 5 (some 102) = Except.ok (103, 102)
    ∧ ¬ (103 : Nat) ≤ 102 :=
  ⟨rfl, by decide⟩

/-- C4 (amended): the resolver performs no bar_count validation and
raises no InvalidRangeError: for bar_count ≤ 0 (either granularity) it
returns a window whose start lies strictly after its end whenever
idx - bar_count + 1 is within the calendar, instead of failing. -/
theorem no_invalid_range_validation (cal : Calendar)
    (hm : cal.all_minutes.Sorted (· < ·))
    (hd : cal.all_sessions.Sorted (· < ·)) :
    (∀ (now : Nat) (limit : Int) (end_dt idx : Nat),
      cal.all_minutes.findIdx? (fun t => t = end_dt) = some idx →
      idx < cal.all_minutes.length →
      cal.all_minutes.getD idx 0 = end_dt →
      end_dt ∈ cal.minutes_for_session (cal.minute_to_session_label end_dt) →
      limit ≤ 0 →
      (idx : Int) - limit + 1 < cal.all_minutes.length →
      ∃ f, getFromAndTo cal now Size.minute limit (some end_dt) =
          Except.ok (f, end_dt) ∧ end_dt < f)
    ∧ (∀ (now : Nat) (limit : Int) (end_dt idx : Nat),
      cal.all_sessions.findIdx?
          (fun t => t = cal.minute_to_session_label end_dt) = some idx →
      idx < cal.all_sessions.length →
      cal.all_sessions.getD idx 0 = cal.minute_to_session_label end_dt →
      limit ≤ 0 →
      (idx : Int) - limit + 1 < cal.all_sessions.length →
      ∃ f, getFromAndTo cal now Size.day limit (some end_dt) =
          Except.ok (f, cal.minute_to_session_label end_dt)
        ∧ cal.minute_to_session_label end_dt < f) := by
  constructor
  · intro now limit end_dt idx hfind hlen hget hmem hle hrange
    rw [getFromAndTo_minute_reduce cal now limit end_dt idx hmem hfind]
    rw [if_pos (by omega : limit ≠ 1)]
    have h0 : 0 ≤ (idx : Int) - limit + 1 := by omega
    rw [pyGet_nonneg _ _ h0 hrange, emap_ok]
    refine ⟨_, rfl, ?_⟩
    have ha : idx < ((idx : Int) - limit + 1).toNat := by omega
    have hb : ((idx : Int) - limit + 1).toNat < cal.all_minutes.length := by
      omega
    rw [← hget]
    exact sorted_getD_lt cal.all_minutes hm idx _ ha hb
  · intro now limit end_dt idx hfind hlen hget hle hrange
    rw [getFromAndTo_day_reduce cal now limit end_dt idx hfind]
    have h0 : 0 ≤ (idx : Int) - limit + 1 := by omega
    rw [pyGet_nonneg _ _ h0 hrange, emap_ok]
    refine ⟨_, rfl, ?_⟩
    have ha : idx < ((idx : Int) - limit + 1).toNat := by omega
    have hb : ((idx : Int) - limit + 1).toNat < cal.all_sessions.length := by
      omega
    rw [← hget]
    exact sorted_getD_lt cal.all_sessions hd idx _ ha hb

/-- Witness for C4: a minute request with bar_count = 0 succeeds and
returns a window starting after its end. -/
theorem no_invalid_range_validation_witness :
    ((0 : Int) ≤ 0)
    ∧ ∃ f, getFromAndTo calNY 0 Size.minute 0 (some 102) =
        Except.ok (f, 102) ∧ 102 < f :=
  ⟨by decide,
    (no_invalid_range_validation calNY (by decide) (by decide)).1
      0 0 102 2 (by decide) (by decide) (by decide) (by decide)
      (by decide) (by decide)⟩

/-- Counterexample for C4 as stated: bar_count = 0 does not fail with
InvalidRangeError (nor any error): the resolver returns the window
(103, 102). -/
theorem invalid_range_counterexample :
    getFromAndTo calNY 0 Size.minute 0 (some 102) = Except.ok (103, 102)
    ∧ (102 : Nat) < 103 :=
  ⟨rfl, by decide⟩

/-- C2 (amended): get_bars has no UnsupportedGranularityError check at
all; it raises AssertionError exactly when data_frequency does not
contain the substring "min" — in particular for Day granularity
(data_frequency "daily"), which therefore never proceeds to return a
BarTable; a minute data_frequency passes the assertion (and then fails
on the unbound name is_daily, see the C10 theorem). -/
theorem get_bars_assertion_iff (data_frequency : String) :
    get_bars data_frequency = Except.error PyErr.assertionError ↔
      pySubstr "min" data_frequency = false := by
  have hres : resolvesInTradierModule "is_daily" = false := by decide
  unfold get_bars
  rcases h : pySubstr "min" data_frequency with _ | _
  · simp
  · simp [hres]

/-- Counterexample for C2 as stated: a Day-granularity request
(data_frequency "daily") does not proceed to a BarTable — it fails, with
AssertionError rather than UnsupportedGranularityError. -/
theorem get_bars_day_counterexample :
    get_bars "daily" = Except.error PyErr.assertionError := rfl

/-- C10: for every minute data_frequency (one containing "min", so the
assertion passes), get_bars raises NameError on the unbound name
is_daily before any data is fetched; moreover its helper
_fetch_bars_from_api references the bare names
ALPACA_MAX_SYMBOLS_PER_REQUEST, parallelize_with_multi_process and pd,
none of which is bound by the module or the builtins. -/
theorem get_bars_unbound_names (data_frequency : String)
    (h : pySubstr "min" data_frequency = true) :
    get_bars data_frequency = Except.error (PyErr.nameError "is_daily")
    ∧ (∀ n ∈ ["ALPACA_MAX_SYMBOLS_PER_REQUEST",
        "parallelize_with_multi_process", "pd"],
        n ∈ fetchBarsFromApiGlobalRefs ∧ resolvesInTradierModule n = false) := by
  have hres : resolvesInTradierModule "is_daily" = false := by decide
  constructor
  · unfold get_bars
    rw [h, hres]
    simp
  · decide

/-- Witness for C10 at the concrete minute frequency "minute". -/
theorem get_bars_unbound_names_witness :
    pySubstr "min" "minute" = true
    ∧ get_bars "minute" = Except.error (PyErr.nameError "is_daily") :=
  ⟨by decide, (get_bars_unbound_names "minute" (by decide)).1⟩

/-- C6: after the UTC tagging (identity on instants), every timestamp of
a minute-granularity frame is shifted forward by exactly one minute,
while a day-granularity frame keeps every timestamp unchanged, all the
way to the output of the per-batch pipeline. -/
theorem minute_shift_day_unchanged {ρ : Type} (cal : Calendar)
    (raw : List (Nat × ρ)) :
    (dfAfterTz Size.minute raw).map Prod.fst =
        (tzLocalizeUTC raw).map (fun p => p.1 + 1)
    ∧ dfAfterTz Size.day raw = tzLocalizeUTC raw
    ∧ (fetchInternalTable cal Size.day raw).map Prod.fst = raw.map Prod.fst := by
  refine ⟨?_, rfl, ?_⟩
  · simp [dfAfterTz, tzLocalizeUTC]
  · simp [fetchInternalTable, dfAfterTz, tzLocalizeUTC]

/-- Auxiliary: the chunking loop rebuilds the input by concatenation. -/
theorem splitGo_join {α : Type} (n : Nat) (hn : 1 ≤ n) :
    ∀ (fuel : Nat) (xs : List α), xs.length ≤ fuel →
    (splitGo n fuel xs).flatten = xs := by
  intro fuel
  induction fuel with
  | zero =>
    intro xs hlen
    have : xs = [] := List.eq_nil_of_length_eq_zero (by omega)
    subst this
    rfl
  | succ fuel ih =>
    intro xs hlen
    match xs with
    | [] => rfl
    | x :: rest =>
      have hdrop : ((x :: rest).drop n).length ≤ fuel := by
        rw [List.length_drop]
        simp only [List.length_cons] at hlen ⊢
        omega
      show ((x :: rest).take n :: splitGo n fuel ((x :: rest).drop n)).flatten
          = x :: rest
      rw [List.flatten, ih _ hdrop, List.take_append_drop]

/-- Auxiliary: every chunk the loop emits has at most n elements. -/
theorem splitGo_length_le {α : Type} (n : Nat) :
    ∀ (fuel : Nat) (xs : List α), ∀ b ∈ splitGo n fuel xs, b.length ≤ n := by
  intro fuel
  induction fuel with
  | zero => intro xs b hb; cases hb
  | succ fuel ih =>
    intro xs b hb
    match xs with
    | [] => cases hb
    | x :: rest =>
      rcases List.mem_cons.mp hb with rfl | hb'
      · rw [List.length_take]
        omega
      · exact ih _ b hb'

/-- Auxiliary: the loop emits nothing on an empty input. -/
theorem splitGo_nil {α : Type} (n : Nat) (fuel : Nat) :
    splitGo n fuel ([] : List α) = [] := by
  cases fuel <;> rfl

/-- Auxiliary: every chunk except possibly the last has exactly n
elements. -/
theorem splitGo_full {α : Type} (n : Nat) :
    ∀ (fuel : Nat) (xs : List α) (i : Nat),
      i + 1 < (splitGo n fuel xs).length →
      ((splitGo n fuel xs).getD i []).length = n := by
  intro fuel
  induction fuel with
  | zero => intro xs i hi; simp [splitGo] at hi
  | succ fuel ih =>
    intro xs i hi
    match xs with
    | [] => simp [splitGo] at hi
    | x :: rest =>
      have hcons : splitGo n (fuel + 1) (x :: rest) =
          (x :: rest).take n :: splitGo n fuel ((x :: rest).drop n) := rfl
      rw [hcons] at hi ⊢
      match i with
      | 0 =>
        have hne : splitGo n fuel ((x :: rest).drop n) ≠ [] := by
          intro hnil
          rw [hnil] at hi
          simp at hi
        have hdne : (x :: rest).drop n ≠ [] := by
          intro hdnil
          rw [hdnil, splitGo_nil] at hne
          exact hne rfl
        have : n < (x :: rest).length := by
          by_contra hcon
          exact hdne (List.drop_eq_nil_of_le (by omega))
        simp only [List.getD_cons_zero, List.length_take]
        omega
      | i + 1 =>
        simp only [List.getD_cons_succ]
        exact ih _ i (by simpa using hi)

/-- C9: splitting the symbols into provider-sized batches is lossless
and order-preserving — the concatenation of the batches is the original
sequence, every batch has at most max_per_batch symbols, and every batch
except possibly the last has exactly max_per_batch symbols. -/
theorem split_symbols_lossless {α : Type} (n : Nat) (xs : List α)
    (hn : 1 ≤ n) :
    (splitSymbols n xs).flatten = xs
    ∧ (∀ b ∈ splitSymbols n xs, b.length ≤ n)
    ∧ (∀ i, i + 1 < (splitSymbols n xs).length →
        ((splitSymbols n xs).getD i []).length = n) := by
  refine ⟨?_, ?_, ?_⟩
  · exact splitGo_join n hn xs.length xs le_rfl
  · exact splitGo_length_le n xs.length xs
  · intro i hi
    exact splitGo_full n xs.length xs i hi

/-- Witness for C9 with five symbols and batch size two. -/
theorem split_symbols_lossless_witness :
    1 ≤ 2
    ∧ ((splitSymbols 2 [10, 20, 30, 40, 50]).flatten = [10, 20, 30, 40, 50]
    ∧ (∀ b ∈ splitSymbols 2 [10, 20, 30, 40, 50], b.length ≤ 2)
    ∧ (∀ i, i + 1 < (splitSymbols 2 [10, 20, 30, 40, 50]).length →
        ((splitSymbols 2 [10, 20, 30, 40, 50]).getD i []).length = 2)) :=
  ⟨by decide, split_symbols_lossless 2 [10, 20, 30, 40, 50] (by decide)⟩

/-- Auxiliary: among the completion events of one run, the event for
slot i is the fetch of batch i, whatever the completion order. -/
theorem find_completion {α β : Type} (f : β → α) (batches : List β)
    (dflt : β) (i : Nat) :
    ∀ order : List Nat, i ∈ order →
    (runCompletions f batches dflt order).find? (fun e => decide (e.1 = i)) =
      some (i, f (batches.getD i dflt)) := by
  intro order
  induction order with
  | nil => intro h; cases h
  | cons j rest ih =>
    intro h
    show ((j, f (batches.getD j dflt)) ::
        runCompletions f batches dflt rest).find? _ = _
    by_cases hj : j = i
    · subst hj
      exact List.find?_cons_of_pos _ (decide_eq_true rfl)
    · have hi : i ∈ rest := by
        rcases List.mem_cons.mp h with h' | h'
        · exact absurd h'.symm hj
        · exact h'
      rw [List.find?_cons_of_neg (runCompletions f batches dflt rest)
        (fun hc => hj (of_decide_eq_true hc))]
      exact ih hi

/-- Auxiliary: reading a list back through positional lookup. -/
theorem range_map_getD {α β : Type} (l : List α) (d : α) (g : α → β) :
    (List.range l.length).map (fun i => g (l.getD i d)) = l.map g := by
  apply List.ext_getElem
  · simp
  · intro i h1 h2
    simp only [List.getElem_map, List.getElem_range]
    rw [List.getD_eq_getElem l d (by simpa using h2)]

/-- C8: whatever order the concurrent units complete in (any permutation
of the batch positions), reading the result slots back in input order
yields exactly the sequential map of the single-batch fetch over the
input batches — position i always holds the result of batch i. -/
theorem parallel_collect_input_order {α β : Type} (f : β → α)
    (batches : List β) (dflt : β) (order : List Nat)
    (hperm : order.Perm (List.range batches.length)) :
    collectInOrder batches.length (runCompletions f batches dflt order) =
      batches.map (fun b => some (f b)) := by
  unfold collectInOrder
  rw [← range_map_getD batches dflt (fun b => some (f b))]
  apply List.map_congr_left
  intro i hi
  have himem : i ∈ order := hperm.mem_iff.mpr hi
  rw [find_completion f batches dflt i order himem]
  rfl

/-- Witness for C8: three batches completing in the order 2, 0, 1 still
collect as the in-order map. -/
theorem parallel_collect_input_order_witness :
    ([2, 0, 1] : List Nat).Perm (List.range ([10, 20, 30] : List Nat).length)
    ∧ collectInOrder ([10, 20, 30] : List Nat).length
        (runCompletions (fun b => b + 1) [10, 20, 30] 0 [2, 0, 1]) =
      [10, 20, 30].map (fun b => some (b + 1)) :=
  ⟨by decide,
    parallel_collect_input_order (fun b => b + 1) [10, 20, 30] 0 [2, 0, 1]
      (by decide)⟩

/-- Auxiliary: the collection succeeds when every batch succeeds. -/
theorem fetchAll_ok {β γ : Type} (f : β → Except Nat γ) :
    ∀ batches : List β, (∀ b ∈ batches, ∃ t, f b = Except.ok t) →
    ∃ ts, fetchAllBatches f batches = Except.ok ts := by
  intro batches
  induction batches with
  | nil => intro _; exact ⟨[], rfl⟩
  | cons c cs ih =>
    intro h
    obtain ⟨t, ht⟩ := h c (List.mem_cons_self c cs)
    obtain ⟨ts, hts⟩ := ih (fun b hb => h b (List.mem_cons_of_mem c hb))
    refine ⟨t :: ts, ?_⟩
    unfold fetchAllBatches
    rw [ht, hts]

/-- Auxiliary: one failing batch means the collection returns no list at
all — no partial result. -/
theorem fetchAll_not_ok {β γ : Type} (f : β → Except Nat γ) :
    ∀ batches : List β, ∀ b ∈ batches, ∀ s, f b = Except.error s →
    ∀ ts, fetchAllBatches f batches ≠ Except.ok ts := by
  intro batches
  induction batches with
  | nil => intro b hb; cases hb
  | cons c cs ih =>
    intro b hb s hfb ts hok
    unfold fetchAllBatches at hok
    rcases List.mem_cons.mp hb with rfl | hb'
    · rw [hfb] at hok
      cases hok
    · rcases hfc : f c with e | t
      · rw [hfc] at hok
        cases hok
      · rw [hfc] at hok
        rcases hall : fetchAllBatches f cs with e2 | ts2
        · rw [hall] at hok
          cases hok
        · exact ih b hb' s hfb ts2 hall

/-- C7: a batch whose provider retrieval fails with status 404 or 504 is
absorbed as an empty result, and the overall collection still succeeds
when every batch is ok-or-transient; a retrieval failing with any other
status is propagated unchanged by the guarded batch, and any failing
batch aborts the whole fetch with no partial result list returned. -/
theorem transient_absorbed_fatal_aborts {β ρ : Type} (cal : Calendar)
    (size : Size) (provider : β → Except Nat (List (Nat × ρ)))
    (batches : List β) :
    (∀ b s, s ∈ [404, 504] → provider b = Except.error s →
      fetchInternalGuarded cal size provider b = Except.ok [])
    ∧ (∀ b s, s ∉ [404, 504] → provider b = Except.error s →
      fetchInternalGuarded cal size provider b = Except.error s)
    ∧ ((∀ b ∈ batches, ∃ t, fetchInternalGuarded cal size provider b =
          Except.ok t) →
      ∃ ts, fetchAllBatches (fetchInternalGuarded cal size provider) batches =
        Except.ok ts)
    ∧ (∀ b ∈ batches, ∀ s,
        fetchInternalGuarded cal size provider b = Except.error s →
      ∀ ts, fetchAllBatches (fetchInternalGuarded cal size provider) batches ≠
        Except.ok ts) := by
  refine ⟨?_, ?_, ?_, ?_⟩
  · intro b s hs hp
    unfold fetchInternalGuarded
    rw [hp]
    show skipHttpError [404, 504] [] (Except.error s) = Except.ok []
    show (if s ∈ [404, 504] then Except.ok ([] : List (Nat × Option ρ))
      else Except.error s) = Except.ok []
    rw [if_pos hs]
  · intro b s hs hp
    unfold fetchInternalGuarded
    rw [hp]
    show skipHttpError [404, 504] [] (Except.error s) = Except.error s
    show (if s ∈ [404, 504] then Except.ok ([] : List (Nat × Option ρ))
      else Except.error s) = Except.error s
    rw [if_neg hs]
  · exact fetchAll_ok (fetchInternalGuarded cal size provider) batches
  · exact fetchAll_not_ok (fetchInternalGuarded cal size provider) batches

/-- Witness for C7: a provider failing with 404 on batch 0 is absorbed
as an empty table, while a provider failure with 500 on batch 1 is
propagated unchanged. -/
theorem transient_absorbed_fatal_aborts_witness :
    ((404 : Nat) ∈ [404, 504]
      ∧ fetchInternalGuarded calNY Size.minute
          (fun b : Nat => if b = 0 then Except.error 404
            else if b = 1 then Except.error 500
            else Except.ok ([] : List (Nat × Nat))) 0 = Except.ok [])
    ∧ ((500 : Nat) ∉ [404, 504]
      ∧ fetchInternalGuarded calNY Size.minute
          (fun b : Nat => if b = 0 then Except.error 404
            else if b = 1 then Except.error 500
            else Except.ok ([] : List (Nat × Nat))) 1 = Except.error 500) :=
  ⟨⟨by decide,
    (transient_absorbed_fatal_aborts calNY Size.minute
      (fun b : Nat => if b = 0 then Except.error 404
        else if b = 1 then Except.error 500
        else Except.ok ([] : List (Nat × Nat))) []).1 0 404 (by decide) rfl⟩,
   ⟨by decide,
    (transient_absorbed_fatal_aborts calNY Size.minute
      (fun b : Nat => if b = 0 then Except.error 404
        else if b = 1 then Except.error 500
        else Except.ok ([] : List (Nat × Nat))) []).2.1 1 500 (by decide) rfl⟩⟩

/-- Auxiliary: the last element of a mapped list is the image of the
last element. -/
theorem map_getLast {α β : Type} (g : α → β) (l : List α) (hne : l ≠ [])
    (hne2 : l.map g ≠ []) :
    (l.map g).getLast hne2 = g (l.getLast hne) := by
  rw [List.getLast_eq_getElem, List.getLast_eq_getElem]
  simp [List.getElem_map, List.length_map]

/-- C5: for a non-empty merged minute table (post shift, with strictly
increasing index), the pipeline output index is exactly the calendar
sequence minutes_in_range(min(index), max(index)): calendar minutes in
the span without data appear as explicit no-data rows, rows with data
inside the span are kept, and raw rows whose timestamp is not a valid
calendar minute are dropped from the output index. -/
theorem minute_reindex_exact {ρ : Type} (cal : Calendar)
    (raw : List (Nat × ρ)) (first : Nat × ρ) (rest : List (Nat × ρ))
    (hdf : dfAfterTz Size.minute raw = first :: rest)
    (hs : ((first :: rest).map Prod.fst).Sorted (· < ·)) :
    ∃ lo hi,
      (lo ∈ (first :: rest).map Prod.fst
        ∧ ∀ t ∈ (first :: rest).map Prod.fst, lo ≤ t)
      ∧ (hi ∈ (first :: rest).map Prod.fst
        ∧ ∀ t ∈ (first :: rest).map Prod.fst, t ≤ hi)
      ∧ (fetchInternalTable cal Size.minute raw).map Prod.fst =
          cal.minutesInRange lo hi
      ∧ (∀ t ∈ cal.minutesInRange lo hi,
          lookupRow (first :: rest) t = none →
          (t, (none : Option ρ)) ∈ fetchInternalTable cal Size.minute raw)
      ∧ (∀ t r, (t, r) ∈ first :: rest → t ∈ cal.minutesInRange lo hi →
          (t, some r) ∈ fetchInternalTable cal Size.minute raw)
      ∧ (∀ t r, (t, r) ∈ first :: rest → t ∉ cal.all_minutes →
          t ∉ (fetchInternalTable cal Size.minute raw).map Prod.fst) := by
  have hne : (first :: rest) ≠ [] := List.cons_ne_nil _ _
  have hmapne : ((first :: rest).map Prod.fst) ≠ [] := by simp
  have hout : fetchInternalTable cal Size.minute raw =
      reindexOn (cal.minutesInRange first.1
        ((first :: rest).getLast hne).1) (first :: rest) := by
    unfold fetchInternalTable
    rw [hdf]
  refine ⟨first.1, ((first :: rest).getLast hne).1,
    ⟨?_, ?_⟩, ⟨?_, ?_⟩, ?_, ?_, ?_, ?_⟩
  · exact List.mem_map.mpr ⟨first, List.mem_cons_self _ _, rfl⟩
  · intro t ht
    have := sorted_head_le _ hs t ht
    simpa using this
  · exact List.mem_map.mpr ⟨(first :: rest).getLast hne,
      List.getLast_mem hne, rfl⟩
  · intro t ht
    have := sorted_le_getLast _ hmapne hs t ht
    rwa [map_getLast Prod.fst _ hne hmapne] at this
  · rw [hout]
    simp [reindexOn, Function.comp_def]
  · intro t ht hnone
    rw [hout]
    exact List.mem_map.mpr ⟨t, ht, by rw [lookupRow] at hnone ⊢; rw [hnone]⟩
  · intro t r hmem hmask
    have hfind := find_pair_of_sorted _ hs t r hmem
    have hlook : lookupRow (first :: rest) t = some r := by
      unfold lookupRow
      rw [hfind]
      rfl
    rw [hout]
    exact List.mem_map.mpr ⟨t, hmask, by rw [hlook]⟩
  · intro t r hmem hnot hcontra
    rw [hout] at hcontra
    simp only [reindexOn, List.map_map] at hcontra
    have hmask : t ∈ cal.minutesInRange first.1
        ((first :: rest).getLast hne).1 := by
      simpa using hcontra
    unfold Calendar.minutesInRange at hmask
    exact hnot (List.mem_filter.mp hmask).1

/-- Witness for C5: raw open-minute bars at 100 and 102 shift to close
minutes 101 and 103; the output is reindexed onto [101, 102, 103] with
an explicit no-data row at 102. -/
theorem minute_reindex_exact_witness :
    dfAfterTz Size.minute rawW = (101, 7) :: [(103, 9)]
    ∧ ∃ lo hi,
      (lo ∈ (((101, 7) :: [(103, 9)] : List (Nat × Nat)).map Prod.fst)
        ∧ ∀ t ∈ (((101, 7) :: [(103, 9)] : List (Nat × Nat)).map Prod.fst),
            lo ≤ t)
      ∧ (hi ∈ (((101, 7) :: [(103, 9)] : List (Nat × Nat)).map Prod.fst)
        ∧ ∀ t ∈ (((101, 7) :: [(103, 9)] : List (Nat × Nat)).map Prod.fst),
            t ≤ hi)
      ∧ (fetchInternalTable calNY Size.minute rawW).map Prod.fst =
          calNY.minutesInRange lo hi
      ∧ (∀ t ∈ calNY.minutesInRange lo hi,
          lookupRow ((101, 7) :: [(103, 9)]) t = none →
          (t, (none : Option Nat)) ∈ fetchInternalTable calNY Size.minute rawW)
      ∧ (∀ t r, (t, r) ∈ (101, 7) :: [(103, 9)] →
          t ∈ calNY.minutesInRange lo hi →
          (t, some r) ∈ fetchInternalTable calNY Size.minute rawW)
      ∧ (∀ t r, (t, r) ∈ (101, 7) :: [(103, 9)] → t ∉ calNY.all_minutes →
          t ∉ (fetchInternalTable calNY Size.minute rawW).map Prod.fst) :=
  ⟨rfl, minute_reindex_exact calNY rawW (101, 7) [(103, 9)] rfl (by decide)⟩

end Tradier
